import Mathlib

/-!
# A verification model of the Unordered-Dense-Map repository

This file gives a shallow embedding of the open-addressed dense hash map in
`src/include/unordered_dense_map.hpp` together with its template method
implementations (the `try_emplace` / `erase` / `find` / `rehash` bodies of
`src/unnamed/part_002`), of the hash mixing helper `detail::mix_hash`
(`src/src/unordered_dense_map.cpp`, portable scalar variant), and of the
sharded concurrent variant (`src/unnamed/part_004`), restricted to the
sequential executions the claims are about.

Keys and mapped values are embedded as `Nat`.  The hash provider
(`detail::hash_traits`) is a parameter `h : Nat → Nat`; following the
provider the 64-bit digest is `h k` truncated to 64 bits and the 8-bit
fingerprint is its low byte.  Machine integers are modelled as `Nat` with
explicit reductions `% 2 ^ w` exactly where the C++ bit fields and casts
truncate.  The recursive `try_emplace` / `rehash` pair can genuinely fail to
terminate in C++ (the rehash-and-retry loop), so it is embedded with a fuel
parameter and returns `none` when the fuel runs out; all positive theorems
are stated about calls that return.
-/

namespace UDM

/-- 2^64, the modulus of the 64-bit machine words used by the hash pipeline. -/
def W64 : Nat := 2 ^ 64

/-- `detail::mix_hash` (portable scalar variant, `src/src/unordered_dense_map.cpp`
lines 109-118): xor-shift-multiply chain on a 64-bit word. -/
def mixHash (x0 : Nat) : Nat :=
  let x1 := (Nat.xor x0 (x0 / 2 ^ 33)) % W64
  let x2 := (x1 * 0xff51afd7ed558ccd) % W64
  let x3 := (Nat.xor x2 (x2 / 2 ^ 33)) % W64
  let x4 := (x3 * 0xc4ceb9fe1a85ec53) % W64
  (Nat.xor x4 (x4 / 2 ^ 33)) % W64

/-- `Hash::hash(key)` as a 64-bit value: the provider digest truncated to a word. -/
def hash0 (h : Nat → Nat) (k : Nat) : Nat := h k % W64

/-- `detail::hash_traits::fingerprint` (unordered_dense_map.hpp lines 109-113):
the low byte of the hash of the key. -/
def fprint (h : Nat → Nat) (k : Nat) : Nat := hash0 h k % 256

/-- The 64-bit hash actually used for probing after the weak-hash branch of
`try_emplace` / `find` / `erase` (part_002 lines 19-24 and the analogous
blocks): if the fingerprint is zero the hash is remixed via `detail::mix_hash`. -/
def effHash (h : Nat → Nat) (k : Nat) : Nat :=
  if fprint h k = 0 then mixHash (hash0 h k) else hash0 h k

/-- The 8-bit fingerprint actually used after the weak-hash branch.  The code
recomputes `Hash::fingerprint(key)` from the KEY (part_002 line 23), not from
the remixed hash, so the value is unchanged by the remix. -/
def effFp (h : Nat → Nat) (k : Nat) : Nat :=
  if fprint h k = 0 then fprint h k else fprint h k

/-- `detail::Bucket` (unordered_dense_map.hpp lines 131-168): the 8+8+1+1+46
bit-field metadata record of one probe slot. -/
structure Bucket where
  fingerprint : Nat
  distance : Nat
  occupied : Bool
  tombstone : Bool
  entryIndex : Nat
deriving Repr, DecidableEq

/-- The default-constructed bucket: all fields zero. -/
def Bucket.start : Bucket := ⟨0, 0, false, false, 0⟩

/-- `Bucket::is_empty`. -/
def Bucket.isEmptyB (b : Bucket) : Bool := !b.occupied && !b.tombstone

/-- `Bucket::is_tombstone`. -/
def Bucket.isTombB (b : Bucket) : Bool := !b.occupied && b.tombstone

/-- `Bucket::set_occupied(fp, dist, idx)`: the `uint8_t` parameters and the
46-bit `entry_index` bit field truncate their inputs. -/
def Bucket.setOcc (fp dist idx : Nat) : Bucket :=
  ⟨fp % 256, dist % 256, true, false, idx % 2 ^ 46⟩

/-- `Bucket::set_tombstone()`: clears `occupied`, sets `tombstone`, keeps the
other fields. -/
def Bucket.setTomb (b : Bucket) : Bucket :=
  { b with occupied := false, tombstone := true }

/-- The state of `unordered_dense_map`: metadata vector (as a function read at
positions `< capacity`), the dense entry store, and the two scalar counters. -/
structure DMap where
  buckets : Nat → Bucket
  entries : List (Nat × Nat)
  size : Nat
  capacity : Nat

/-- Pointwise update of the bucket vector. -/
def bupd (f : Nat → Bucket) (p : Nat) (b : Bucket) : Nat → Bucket :=
  fun q => if q = p then b else f q

/-- `entries_[i]` (out-of-range reads are undefined behaviour in C++ and only
occur outside the reachable states; the model totalises them with `(0,0)`). -/
def entryAt (m : DMap) (i : Nat) : Nat × Nat := m.entries.getD i (0, 0)

/-- A freshly constructed map: `INITIAL_CAPACITY = 16`, all buckets empty. -/
def emptyMap : DMap := ⟨fun _ => Bucket.start, [], 0, 16⟩

/-- `MAX_DISTANCE = 255`. -/
def MAX_DIST : Nat := 255

/-- The load-factor trigger `size_ >= capacity_ * MAX_LOAD_FACTOR` with
`MAX_LOAD_FACTOR = 0.75f` (part_002 line 11).  For every reachable capacity
(16 times a power of two) `capacity * 0.75f` is computed exactly, and the
comparison is equivalent to `3 * capacity ≤ 4 * size`. -/
def loadTrigger (m : DMap) : Bool := 3 * m.capacity ≤ 4 * m.size

/-- Result of one run of the robin-hood probe loop of `try_emplace`
(part_002 lines 35-80).  `placed` and `dup` return the (possibly mutated)
map; `exhausted` is the fall-through at `distance == MAX_DISTANCE` carrying
the key/value that is still being displaced (`kcopy` / `vcopy`). -/
inductive ProbeRes where
  | placed : DMap → Nat → ProbeRes
  | dup : DMap → Nat → ProbeRes
  | exhausted : DMap → Nat → Nat → ProbeRes
  | noFuel : ProbeRes


/-- The probe loop of `try_emplace` (part_002 lines 35-80).  The C++
`while (distance < MAX_DISTANCE)` loop has no structural termination measure
(a robin-hood swap resets `distance` to the displaced bucket's distance), and
on corrupted states it can run forever; the loop therefore takes a fuel
argument that strictly exceeds the length of every terminating run on
invariant-satisfying states. -/
def probeLoop (m : DMap) (ck cv cfp dist pos : Nat) : Nat → ProbeRes
  | 0 => ProbeRes.noFuel
  | fuel + 1 =>
    if MAX_DIST ≤ dist then ProbeRes.exhausted m ck cv
    else
      let b := m.buckets pos
      if b.isEmptyB || b.isTombB then
        -- found empty slot or tombstone: append the carried entry
        let eidx := m.entries.length
        ProbeRes.placed
          { m with
            buckets := bupd m.buckets pos (Bucket.setOcc cfp dist eidx)
            entries := m.entries ++ [(ck, cv)]
            size := m.size + 1 } eidx
      else if b.occupied && b.fingerprint == cfp && (entryAt m b.entryIndex).1 == ck then
        ProbeRes.dup m b.entryIndex
      else if b.occupied && decide (b.distance < dist) then
        -- robin-hood: swap the entry data in place and the fp/distance metadata
        let disp := entryAt m b.entryIndex
        let m2 :=
          { m with
            entries := m.entries.set b.entryIndex (ck, cv)
            buckets := bupd m.buckets pos
              { b with fingerprint := cfp % 256, distance := dist % 256 } }
        probeLoop m2 disp.1 disp.2 b.fingerprint (b.distance + 1) ((pos + 1) % m.capacity) fuel
      else
        probeLoop m ck cv cfp (dist + 1) ((pos + 1) % m.capacity) fuel

/-- The result of `try_emplace`: the new map, the entry index of the returned
iterator, the `inserted` flag, and whether the mapped value was constructed
from the arguments during the call (`Value vcopy = Value(args...)`,
part_002 line 32 — executed before the probe loop on every call). -/
structure InsRes where
  map : DMap
  idx : Nat
  inserted : Bool
  constructed : Bool


/-- One pass of the reinsert loops: folds `try_emplace` (passed as `te`) over
a list of entries, keeping only the map.  Used by `rehash` (part_002 lines
234-238) and by the driver of repeated insertions. -/
def reinsertGo (te : DMap → Nat → Nat → Option InsRes) :
    DMap → List (Nat × Nat) → Option DMap
  | m, [] => some m
  | m, (k, v) :: rest =>
    match te m k v with
    | none => none
    | some r => reinsertGo te r.map rest

/-- `rehash(new_capacity)` (part_002 lines 222-239): moves the entries out,
resets the table to `new_capacity` empty buckets with `size_ = 0`, and
reinserts the first `old_size` moved entries through the insert path. -/
def rehashGo (te : DMap → Nat → Nat → Option InsRes) (m : DMap) (newCap : Nat) :
    Option DMap :=
  reinsertGo te
    { buckets := fun _ => Bucket.start, entries := [], size := 0, capacity := newCap }
    (m.entries.take m.size)

/-- The continuation of `try_emplace` after the probe loop (part_002 lines
39-58 exits and lines 82-84): a placement returns `(iterator, true)`, a
duplicate returns `(iterator, false)`, and probe exhaustion runs
`rehash(capacity_ * 2)` and retries `try_emplace(kcopy, std::move(vcopy))`
(the recursive call `te` at one less fuel; the retried call constructs a
fresh `vcopy` from the moved one, so `constructed` stays true). -/
def afterProbe (te : DMap → Nat → Nat → Option InsRes) : ProbeRes → Option InsRes
  | ProbeRes.placed m2 idx => some ⟨m2, idx, true, true⟩
  | ProbeRes.dup m2 idx => some ⟨m2, idx, false, true⟩
  | ProbeRes.exhausted m2 ck cv =>
    match rehashGo te m2 (m2.capacity * 2) with
    | none => none
    | some m3 => (te m3 ck cv).map fun r => { r with constructed := true }
  | ProbeRes.noFuel => none

/-- `try_emplace(key, args...)` (part_002 lines 6-85), with fuel for the
rehash-and-retry recursion.  Steps, in source order: the load-factor check
with `rehash(capacity_ * 2)`; hash, fingerprint and the weak-hash remix;
construction of `kcopy` / `vcopy` (hence `constructed := true` on every
returning path); the robin-hood probe loop; and the continuation above. -/
def tryEmplaceF (h : Nat → Nat) : Nat → DMap → Nat → Nat → Option InsRes
  | 0, _, _, _ => none
  | fuel + 1, m, k, v =>
    let step1 : Option DMap :=
      if loadTrigger m then rehashGo (tryEmplaceF h fuel) m (m.capacity * 2) else some m
    match step1 with
    | none => none
    | some m1 =>
      afterProbe (tryEmplaceF h fuel)
        (probeLoop m1 k v (effFp h k) 0 (effHash h k % m1.capacity) (m1.capacity + 256))

/-- `rehash` packaged with the insert path at a given fuel. -/
def rehashF (h : Nat → Nat) (fuel : Nat) (m : DMap) (newCap : Nat) : Option DMap :=
  rehashGo (tryEmplaceF h fuel) m newCap

/-- The probe loop of `find` (part_002 lines 180-209): stops at an empty
bucket, skips tombstones, and returns the entry index on a fingerprint and
key match.  The fuel is `MAX_DISTANCE - distance`, faithful to the
`while (distance < MAX_DISTANCE)` bound (`distance` only ever increments). -/
def findAux (m : DMap) (fpv k : Nat) : Nat → Nat → Option Nat
  | _, 0 => none
  | pos, fuel + 1 =>
    let b := m.buckets pos
    if b.isEmptyB then none
    else if b.isTombB then findAux m fpv k ((pos + 1) % m.capacity) fuel
    else if b.occupied && b.fingerprint == fpv && (entryAt m b.entryIndex).1 == k then
      some b.entryIndex
    else findAux m fpv k ((pos + 1) % m.capacity) fuel

/-- `find(key)` (part_002 lines 163-212); `none` models the `end()` iterator. -/
def findF (h : Nat → Nat) (m : DMap) (k : Nat) : Option Nat :=
  findAux m (effFp h k) k (effHash h k % m.capacity) MAX_DIST

/-- `contains(key)` (unordered_dense_map.hpp line 324). -/
def containsF (h : Nat → Nat) (m : DMap) (k : Nat) : Bool :=
  (findF h m k).isSome

/-- `at(key)` (unordered_dense_map.hpp lines 223-229): `find`, then either the
`std::out_of_range` throw on `end()` or the mapped value of the hit. -/
def atF (h : Nat → Nat) (m : DMap) (k : Nat) : Except Unit Nat :=
  match findF h m k with
  | none => Except.error ()
  | some i => Except.ok (entryAt m i).2

/-- The fix-up scan of `erase` (part_002 lines 135-142): find the first
occupied bucket whose `entry_index` equals `target` and rewrite it to
`newIdx` (a 46-bit bit-field assignment). -/
def fixLastAux (bk : Nat → Bucket) (target newIdx : Nat) : Nat → Nat → (Nat → Bucket)
  | _, 0 => bk
  | i, fuel + 1 =>
    let b := bk i
    if b.occupied && b.entryIndex == target then
      bupd bk i { b with entryIndex := newIdx % 2 ^ 46 }
    else fixLastAux bk target newIdx (i + 1) fuel

/-- The probe loop of `erase` (part_002 lines 104-158): on a key match, move
the last entry into the erased entry's slot, rescan the metadata for the
bucket that referenced the old last index, tombstone the matched bucket,
pop the entry store and decrement `size_`. -/
def eraseAux (m : DMap) (fpv k : Nat) : Nat → Nat → (DMap × Nat)
  | _, 0 => (m, 0)
  | pos, fuel + 1 =>
    let b := m.buckets pos
    if b.isEmptyB then (m, 0)
    else if b.isTombB then eraseAux m fpv k ((pos + 1) % m.capacity) fuel
    else if b.occupied && b.fingerprint == fpv && (entryAt m b.entryIndex).1 == k then
      let ei := b.entryIndex
      let lastIdx := m.size - 1
      let moved :=
        if ei ≠ lastIdx then
          (fixLastAux m.buckets lastIdx ei 0 m.capacity, m.entries.set ei (entryAt m lastIdx))
        else (m.buckets, m.entries)
      let bk2 := bupd moved.1 pos ((moved.1 pos).setTomb)
      ({ m with buckets := bk2, entries := moved.2.dropLast, size := m.size - 1 }, 1)
    else eraseAux m fpv k ((pos + 1) % m.capacity) fuel

/-- `erase(key)` (part_002 lines 87-161): returns the map and the removed
count (0 or 1). -/
def eraseF (h : Nat → Nat) (m : DMap) (k : Nat) : DMap × Nat :=
  eraseAux m (effFp h k) k (effHash h k % m.capacity) MAX_DIST

/-- Dense iteration `begin()`/`end()` (unordered_dense_map.hpp lines 290-295):
the iterator walks the entry store by index from `0` to `size_ - 1`. -/
def iterPairs (m : DMap) : List (Nat × Nat) :=
  (List.range m.size).map (entryAt m)

/-- Repeated insertion driver used to express claims about operation
sequences. -/
def runInserts (h : Nat → Nat) (fuel : Nat) (m : DMap) (l : List (Nat × Nat)) :
    Option DMap :=
  reinsertGo (tryEmplaceF h fuel) m l

end UDM

namespace CUDM

open UDM (Bucket W64 hash0 fprint)

/-!
## The sharded concurrent variant (`src/unnamed/part_004`)

One `Segment` is modelled, run sequentially (no interleaving): every atomic
load returns the current value and every compare-and-swap succeeds, which is
exactly the executions claims C8 and C10 quantify over.  The unpacked form of
the atomic 64-bit bucket word has the same fields as `detail::Bucket`, and
the all-zero initial word unpacks to an empty bucket, so `Bucket` is reused.
The concurrent probe paths compute `hash % capacity`; since a freshly
constructed segment has capacity `INITIAL_CAPACITY / SEGMENT_COUNT = 16 / 64
= 0`, this modulo has an undefined-behaviour divisor-zero case that the total
embedding surfaces as the explicit error `SegErr.modZero`. -/

/-- `concurrent_unordered_dense_map::Segment` state: bucket words, the entry
array with per-entry `valid` flags (default-constructed entries carry
`valid{true}`), and the scalar counters. -/
structure Seg where
  size : Nat
  capacity : Nat
  buckets : Nat → Bucket
  entries : Nat → Nat × Nat
  valid : Nat → Bool
  entriesCap : Nat

/-- A freshly constructed segment (part_004 lines 84-99): capacity is the
integer division `INITIAL_CAPACITY / SEGMENT_COUNT = 16 / 64`, i.e. zero. -/
def Seg.mk0 : Seg :=
  { size := 0
    capacity := 16 / 64
    buckets := fun _ => Bucket.start
    entries := fun _ => (0, 0)
    valid := fun _ => true
    entriesCap := 16 / 64 }

/-- Errors of the total embedding of the segment operations: `modZero` is the
guarded branch for the undefined `hash % 0` computed when `capacity = 0`. -/
inductive SegErr where
  | modZero : SegErr
deriving Repr, DecidableEq

/-- Pointwise update helpers for the segment arrays. -/
def bupdS (f : Nat → Bucket) (p : Nat) (b : Bucket) : Nat → Bucket :=
  fun q => if q = p then b else f q

def eupdS (f : Nat → Nat × Nat) (p : Nat) (e : Nat × Nat) : Nat → Nat × Nat :=
  fun q => if q = p then e else f q

def vupdS (f : Nat → Bool) (p : Nat) (v : Bool) : Nat → Bool :=
  fun q => if q = p then v else f q

/-- The probe loop of the concurrent `find` (part_004 lines 226-255): no
weak-hash remix, skips tombstones, requires `entry_index < size`, the entry
`valid` flag and full key equality on a fingerprint match. -/
def findSegAux (s : Seg) (fpv k : Nat) : Nat → Nat → Option Nat
  | _, 0 => none
  | pos, fuel + 1 =>
    let b := s.buckets pos
    if b.isEmptyB then none
    else if b.isTombB then findSegAux s fpv k ((pos + 1) % s.capacity) fuel
    else if b.occupied && b.fingerprint == fpv && decide (b.entryIndex < s.size)
        && s.valid b.entryIndex && (s.entries b.entryIndex).1 == k then
      some b.entryIndex
    else findSegAux s fpv k ((pos + 1) % s.capacity) fuel

/-- `concurrent_unordered_dense_map::find` restricted to one segment
(part_004 lines 213-258).  `ideal_pos = hash % capacity` is undefined when
the capacity is zero; the embedding guards that division. -/
def findSeg (h : Nat → Nat) (s : Seg) (k : Nat) : Except SegErr (Option Nat) :=
  if s.capacity = 0 then Except.error SegErr.modZero
  else Except.ok (findSegAux s (fprint h k) k (hash0 h k % s.capacity) 255)

/-- `insert_in_segment` (part_004 lines 411-459), sequential execution: claim
the first empty-or-tombstone slot, append the entry at index `size`
(`fetch_add`), publish the packed occupied word (the CAS succeeds).  Returns
`false` after `MAX_DISTANCE` probes.  The `hash % capacity` of line 417 is
guarded as in `find`. -/
def insertSegAux (s : Seg) (k v fpv : Nat) : Nat → Nat → Nat → (Seg × Bool)
  | _, _, 0 => (s, false)
  | pos, dist, fuel + 1 =>
    let b := s.buckets pos
    if b.isEmptyB || b.isTombB then
      let eidx := s.size
      ({ s with
          size := s.size + 1
          entries := eupdS s.entries eidx (k, v)
          valid := vupdS s.valid eidx true
          buckets := bupdS s.buckets pos (Bucket.setOcc fpv dist eidx) }, true)
    else insertSegAux s k v fpv ((pos + 1) % s.capacity) (dist + 1) fuel

def insertInSegment (h : Nat → Nat) (s : Seg) (k v : Nat) : Except SegErr (Seg × Bool) :=
  if s.capacity = 0 then Except.error SegErr.modZero
  else Except.ok (insertSegAux s k v (fprint h k) (hash0 h k % s.capacity) 0 255)

/-- `erase` on a segment (part_004 lines 299-346) begins with `find(key)`;
on a fresh segment the `hash % capacity` inside that `find` is already the
undefined division, which the embedding propagates. -/
def eraseSeg (h : Nat → Nat) (s : Seg) (k : Nat) : Except SegErr Bool :=
  match findSeg h s k with
  | Except.error e => Except.error e
  | Except.ok none => Except.ok false
  | Except.ok (some _) => Except.ok true

/-- `resize_segment` (part_004 lines 374-409): double the capacity, allocate
fresh all-empty bucket words, compact the valid entries into the new entry
array (their `valid` flags set to true, the remaining defaults are also
true), and install the new arrays.  The bucket metadata for the moved
entries is never rebuilt — the loop body only carries the comment
`// Update bucket mapping...` — so the installed bucket array is all empty. -/
def resizeSegment (s : Seg) : Seg :=
  let newCap := s.capacity * 2
  let kept := ((List.range s.size).filter (fun i => s.valid i)).map s.entries
  { size := kept.length
    capacity := newCap
    buckets := fun _ => Bucket.start
    entries := fun i => kept.getD i (0, 0)
    valid := fun _ => true
    entriesCap := newCap }

end CUDM

namespace UDM

/-!
## Concrete executions

Hash providers and small reachable states used by the concrete theorems.
`hid` hashes a key to itself (fingerprints `k % 256`); `h256` hashes `k` to
`256 * k`, so every key has fingerprint zero and exercises the weak-hash
remix branch. -/

def hid : Nat → Nat := fun k => k

def h256 : Nat → Nat := fun k => 256 * k

/-- Run one `try_emplace` with fuel 9 and keep the resulting map (the fuel is
ample for these runs, as the accompanying proofs evaluate). -/
def step (h : Nat → Nat) (m : DMap) (k v : Nat) : DMap :=
  ((tryEmplaceF h 9 m k v).map InsRes.map).getD m

/-- Insert key 1 (home slot 1), then key 17 (same home slot 1, displaced to
slot 2), then erase key 1: this leaves a tombstone at slot 1 on the probe
path of key 17, whose occupied bucket sits at slot 2. -/
def mapA : DMap := step hid (step hid emptyMap 1 100) 17 200

def mapB : DMap := (eraseF hid mapA 1).1

/-- Re-inserting key 17 into `mapB` lands in the tombstone at slot 1 without
probing past it, so `mapC` holds two entries for key 17. -/
def mapC : DMap := step hid mapB 17 300

/-- Default / projection helpers for extracting a returned `InsRes` in closed
statements. -/
def dfltRes : InsRes := ⟨emptyMap, 0, false, false⟩

def getRes (o : Option InsRes) : InsRes := o.getD dfltRes

/-- Structural light invariant of the single-threaded table: the entry store
is exactly `size` long, the load bound `size ≤ capacity * 0.75` holds, and
the capacity is at least `INITIAL_CAPACITY` and divisible by 4 (reachable
capacities are 16 times powers of two, for which the float comparison of the
load check is exact). -/
def InvL (m : DMap) : Prop :=
  m.entries.length = m.size ∧ 4 * m.size ≤ 3 * m.capacity ∧
    16 ≤ m.capacity ∧ 4 ∣ m.capacity

/-- The states of the single-threaded map reachable by constructing it and
running returning `try_emplace` and `erase` calls. -/
inductive Reach (h : Nat → Nat) : DMap → Prop where
  | base : Reach h emptyMap
  | ins {m : DMap} {fuel k v : Nat} {r : InsRes} :
      Reach h m → tryEmplaceF h fuel m k v = some r → Reach h r.map
  | del {m : DMap} (k : Nat) : Reach h m → Reach h (eraseF h m k).1

/-- The behaviour required of one insert call by the light invariant
arguments: preserve `InvL`, grow `size` by at most one and never shrink the
capacity. -/
def TeL (te : DMap → Nat → Nat → Option InsRes) : Prop :=
  ∀ m k v r, InvL m → te m k v = some r →
    InvL r.map ∧ r.map.size ≤ m.size + 1 ∧ m.capacity ≤ r.map.capacity

/-- Light bookkeeping facts about a probe-loop outcome relative to the
starting map: a placement appends exactly one entry (at index
`entries.length`) and increments `size`; a duplicate exit and probe
exhaustion leave the store length, `size` and `capacity` unchanged (robin
hood swaps only overwrite entries in place); the capacity never changes. -/
def PLight (m : DMap) : ProbeRes → Prop
  | ProbeRes.placed m2 idx =>
      m2.entries.length = m.entries.length + 1 ∧ m2.size = m.size + 1 ∧
        m2.capacity = m.capacity ∧ idx = m.entries.length
  | ProbeRes.dup m2 _ =>
      m2.entries.length = m.entries.length ∧ m2.size = m.size ∧
        m2.capacity = m.capacity
  | ProbeRes.exhausted m2 _ _ =>
      m2.entries.length = m.entries.length ∧ m2.size = m.size ∧
        m2.capacity = m.capacity
  | ProbeRes.noFuel => True

/-- Full probing invariant of one OCCUPIED bucket `p`: it references a live
entry, caches that entry's fingerprint, sits exactly `distance` slots after
the entry's home slot (with `distance < MAX_DISTANCE`), and no slot on the
probe path from the home slot up to `p` is EMPTY (so lookups cannot
terminate before reaching `p`). -/
structure BucketOk (h : Nat → Nat) (m : DMap) (p : Nat) : Prop where
  eiLt : (m.buckets p).entryIndex < m.entries.length
  fpEq : (m.buckets p).fingerprint = fprint h (entryAt m (m.buckets p).entryIndex).1
  dLt : (m.buckets p).distance < MAX_DIST
  posEq : p = (effHash h (entryAt m (m.buckets p).entryIndex).1 +
    (m.buckets p).distance) % m.capacity
  path : ∀ j, j < (m.buckets p).distance →
    (m.buckets ((effHash h (entryAt m (m.buckets p).entryIndex).1 + j) %
      m.capacity)).isEmptyB = false

/-- Full table invariant of the single-threaded map: positive capacity, the
dense store is `size` long, every OCCUPIED bucket within the table satisfies
`BucketOk`, no two OCCUPIED buckets share an entry index, and every live
entry is referenced by an OCCUPIED bucket. -/
structure InvT (h : Nat → Nat) (m : DMap) : Prop where
  capPos : 0 < m.capacity
  lenSz : m.entries.length = m.size
  occOk : ∀ p, p < m.capacity → (m.buckets p).occupied = true → BucketOk h m p
  inj : ∀ p q, p < m.capacity → q < m.capacity → (m.buckets p).occupied = true →
    (m.buckets q).occupied = true →
    (m.buckets p).entryIndex = (m.buckets q).entryIndex → p = q
  surj : ∀ i, i < m.entries.length → ∃ p, p < m.capacity ∧
    (m.buckets p).occupied = true ∧ (m.buckets p).entryIndex = i

/-- All stored keys are distinct. -/
def NodupK (m : DMap) : Prop := (m.entries.map Prod.fst).Nodup

/-- Key `k` is not stored. -/
def freshK (m : DMap) (k : Nat) : Prop := k ∉ m.entries.map Prod.fst

/-- Correctness contract of a probe-loop outcome for the insertion of a key
absent from the table (relative to the fixed target multiset `base` of
entries and the fixed capacity `cap`): a placement yields an invariant,
duplicate-free store holding exactly `base`; a duplicate exit is impossible;
probe exhaustion yields an invariant store that together with the still
displaced entry holds exactly `base`. -/
def PFresh (h : Nat → Nat) (base : List (Nat × Nat)) (cap : Nat) : ProbeRes → Prop
  | ProbeRes.placed m2 _ =>
      InvT h m2 ∧ NodupK m2 ∧ m2.entries.Perm base ∧ m2.capacity = cap
  | ProbeRes.dup _ _ => False
  | ProbeRes.exhausted m2 ck2 cv2 =>
      InvT h m2 ∧ NodupK m2 ∧ freshK m2 ck2 ∧
        (m2.entries ++ [(ck2, cv2)]).Perm base ∧ m2.capacity = cap
  | ProbeRes.noFuel => True

/-- Correctness contract of one insert call on a fresh key: the resulting
store is the old one plus the new pair, the invariants are preserved, and
the call reports `inserted = true`. -/
def TeF (h : Nat → Nat) (te : DMap → Nat → Nat → Option InsRes) : Prop :=
  ∀ m k v r, InvT h m → NodupK m → freshK m k → m.entries.length < 2 ^ 46 →
    te m k v = some r →
    InvT h r.map ∧ NodupK r.map ∧ r.map.entries.Perm ((k, v) :: m.entries) ∧
      r.inserted = true

/-- The C1 witness workload: 14 distinct keys, enough to cross the
`0.75 * 16 = 12` rehash threshold of the fresh table. -/
def listC1 : List (Nat × Nat) := (List.range 14).map (fun i => (i + 1, 100 + i))

end UDM

namespace CUDM

open UDM (hid)

/-- Decidable equality of `Except` results, for evaluating the segment
operations in the concrete theorems. -/
instance {ε α : Type} [DecidableEq ε] [DecidableEq α] : DecidableEq (Except ε α) :=
  fun a b =>
    match a, b with
    | Except.ok x, Except.ok y => decidable_of_iff (x = y) (by simp)
    | Except.error x, Except.error y => decidable_of_iff (x = y) (by simp)
    | Except.ok _, Except.error _ => isFalse (fun hh => by cases hh)
    | Except.error _, Except.ok _ => isFalse (fun hh => by cases hh)

/-- A segment state with a non-degenerate capacity of 16, standing in for a
partition as designed (the constructor itself yields capacity 0 — claim
C10 — so a usable capacity is posited to exercise the resize path). -/
def seg16 : Seg := { Seg.mk0 with capacity := 16, entriesCap := 16 }

/-- Run one sequential `insert_in_segment` and keep the segment. -/
def segStep (h : Nat → Nat) (s : Seg) (k v : Nat) : Seg :=
  match insertInSegment h s k v with
  | Except.ok sr => sr.1
  | Except.error _ => s

def seg16a : Seg := segStep hid seg16 3 30

end CUDM

namespace UDM

/-- The remix of a weak hash does not change the fingerprint used and stored
by the operations, since the code recomputes it from the key. -/
theorem effFp_eq_fprint (h : Nat → Nat) (k : Nat) : effFp h k = fprint h k := by
  unfold effFp; split <;> rfl

/-- Extracting the value of a computed `isSome` option. -/
theorem opt_eq_some_getD {α : Type} (o : Option α) (d : α) (hs : o.isSome = true) :
    o = some (o.getD d) := by
  cases o with
  | none => cases hs
  | some a => rfl

/-- C2.  Refutation at a reachable state: in `mapB` (reached from the empty
map by inserting keys 1 and 17 and erasing key 1) key 17 is stored and a
tombstone lies on its probe path before its bucket; `try_emplace(17, 300)`
nevertheless returns `inserted = true` and creates a second entry for key
17, because the insert loop claims the first tombstone without confirming
absence further down the probe chain.  `find` then resolves key 17 to the
new entry, so the looked-up value changes from 200 to 300. -/
theorem c2_tombstone_shadows_duplicate :
    containsF hid mapB 17 = true ∧
    (tryEmplaceF hid 9 mapB 17 300).map
        (fun r => (r.inserted, r.map.entries.map Prod.fst, r.map.size)) =
      some (true, [17, 17], 2) ∧
    (findF hid mapC 17).map (entryAt mapC) = some (17, 300) := by
  decide

/-- C3.  Refutation: under the provider `h256` key 1 has hash 256, hence
fingerprint 0, and the weak-hash branch remixes the probing hash; but the
fingerprint is recomputed from the key (`Hash::fingerprint(key)`, part_002
line 23) and remains 0, so after inserting key 1 the live OCCUPIED bucket
stores fingerprint 0 (and `find` still matches it via the equal zero
fingerprints). -/
theorem c3_zero_fingerprint_stored :
    fprint h256 1 = 0 ∧
    effHash h256 1 ≠ hash0 h256 1 ∧
    ((step h256 emptyMap 1 5).buckets (effHash h256 1 % 16)).occupied = true ∧
    ((step h256 emptyMap 1 5).buckets (effHash h256 1 % 16)).fingerprint = 0 ∧
    findF h256 (step h256 emptyMap 1 5) 1 = some 0 := by
  decide

/-- C4.  Refutation: `try_emplace` constructs `vcopy` from the arguments
before the probe loop on every call (part_002 line 32), so calling it with a
key that is already present returns `inserted = false` (and leaves the
stored value unchanged) yet has constructed the mapped value. -/
theorem c4_value_constructed_on_duplicate :
    (tryEmplaceF hid 9 (step hid emptyMap 1 100) 1 999).map
        (fun r => (r.inserted, r.constructed, r.map.entries)) =
      some (false, true, [(1, 100)]) := by
  decide

/-- C5.  Refutation at a reachable state: `mapC` (reached from the empty map
by the insert/erase sequence of C2) stores key 17 twice; `erase(17)` returns
1 and decrements `size` by exactly one, but `contains(17)` still holds
afterwards, because only one of the two duplicate entries is removed. -/
theorem c5_erase_leaves_duplicate_key :
    (eraseF hid mapC 17).2 = 1 ∧
    (eraseF hid mapC 17).1.size = mapC.size - 1 ∧
    containsF hid (eraseF hid mapC 17).1 17 = true := by
  decide

/-- Soundness of the `find` probe loop: a returned entry index always decodes
to an entry whose key equals the searched key (the loop returns only after
the full key comparison `entries_[bucket.entry_index].key == key`). -/
theorem findAux_key_eq (m : DMap) (fpv k : Nat) :
    ∀ fuel pos i, findAux m fpv k pos fuel = some i → (entryAt m i).1 = k := by
  intro fuel
  induction fuel with
  | zero => intro pos i hh; simp [findAux] at hh
  | succ n ih =>
    intro pos i hh
    unfold findAux at hh
    by_cases he : (m.buckets pos).isEmptyB
    · simp [he] at hh
    · by_cases ht : (m.buckets pos).isTombB
      · simp [he, ht] at hh
        exact ih _ _ hh
      · by_cases hm :
          ((m.buckets pos).occupied && (m.buckets pos).fingerprint == fpv
            && (entryAt m (m.buckets pos).entryIndex).1 == k) = true
        · simp [he, ht, hm] at hh
          subst hh
          simp only [Bool.and_eq_true, beq_iff_eq] at hm
          exact hm.2
        · simp [he, ht, hm] at hh
          exact ih _ _ hh

/-- C9.  `at(k)` signals the key-not-found error exactly when `find(k)`
returns `end()`, and on a hit returns the mapped value of the found entry,
whose key is `k`.  The model of `at` is a pure function of the map (the
underlying `find` loop never rewrites metadata), so the map is unmodified. -/
theorem c9_at_iff_find_misses :
    ∀ (h : Nat → Nat) (m : DMap) (k : Nat),
      ((atF h m k = Except.error ()) ↔ findF h m k = none) ∧
      (∀ i, findF h m k = some i →
        atF h m k = Except.ok (entryAt m i).2 ∧ (entryAt m i).1 = k) := by
  intro h m k
  constructor
  · unfold atF
    cases hf : findF h m k <;> simp [hf]
  · intro i hf
    refine ⟨by unfold atF; rw [hf], ?_⟩
    exact findAux_key_eq m (effFp h k) k MAX_DIST _ i hf

/-- Witness for C9 at a concrete reachable map: key 99 is absent from `mapA`
so `at` raises the error, and key 17 is present with value 200. -/
theorem c9_at_iff_find_misses_witness :
    atF hid mapA 99 = Except.error () ∧ atF hid mapA 17 = Except.ok 200 := by
  refine ⟨(c9_at_iff_find_misses hid mapA 99).1.mpr (by decide), ?_⟩
  have h2 := ((c9_at_iff_find_misses hid mapA 17).2 1 (by decide)).1
  exact h2.trans (congrArg Except.ok (by decide : (entryAt mapA 1).2 = 200))

end UDM

namespace CUDM

open UDM (hid)

/-- After `resize_segment` every bucket word is the all-zero (EMPTY) word:
the rebuild loop never writes the new bucket array, so any `find` probe
terminates at its first slot with a miss (or at the guarded modulo when the
doubled capacity is still zero). -/
theorem findSeg_after_resize (h : Nat → Nat) (s : Seg) (k : Nat)
    (hcap : s.capacity ≠ 0) : findSeg h (resizeSegment s) k = Except.ok none := by
  have hc2 : (resizeSegment s).capacity = s.capacity * 2 := rfl
  unfold findSeg
  rw [hc2]
  have : ¬ (s.capacity * 2 = 0) := by omega
  simp only [this, if_false]
  have hb : ∀ pos fuel, findSegAux (resizeSegment s) (UDM.fprint h k) k pos (fuel + 1) = none := by
    intro pos fuel
    unfold findSegAux
    simp [resizeSegment, UDM.Bucket.isEmptyB, UDM.Bucket.start]
  rw [show (255 : Nat) = 254 + 1 from rfl, hb]

/-- C8.  Refutation (sequential execution): in the segment `seg16a` key 3 is
stored and findable at entry index 0; after `resize_segment` the same key —
indeed every key — misses, because the resize copies the entries but never
rebuilds the bucket metadata (`// Update bucket mapping...` is the only
trace of the required step), leaving every new bucket EMPTY. -/
theorem c8_resize_loses_all_keys :
    findSeg hid seg16a 3 = Except.ok (some 0) ∧
    (resizeSegment seg16a).size = 1 ∧
    (∀ k0, findSeg hid (resizeSegment seg16a) k0 = Except.ok none) := by
  refine ⟨by decide, by decide, fun k0 => ?_⟩
  exact findSeg_after_resize hid seg16a k0 (by decide)

/-- C10.  A freshly constructed segment has capacity
`INITIAL_CAPACITY / SEGMENT_COUNT = 16 / 64 = 0`, so the `hash % capacity`
home-slot computation of `find`, `insert_in_segment` and `erase` is a modulo
by zero for every key and every hash provider: in the total embedding the
guarded-division error branch is taken on every first operation. -/
theorem c10_fresh_segment_mod_zero :
    Seg.mk0.capacity = 0 ∧
    (∀ (h : Nat → Nat) (k0 : Nat), findSeg h Seg.mk0 k0 = Except.error SegErr.modZero) ∧
    (∀ (h : Nat → Nat) (k0 v0 : Nat),
      insertInSegment h Seg.mk0 k0 v0 = Except.error SegErr.modZero) ∧
    (∀ (h : Nat → Nat) (k0 : Nat), eraseSeg h Seg.mk0 k0 = Except.error SegErr.modZero) := by
  refine ⟨rfl, fun h k0 => rfl, fun h k0 v0 => rfl, fun h k0 => rfl⟩

end CUDM

namespace UDM

/-!
## Light structural invariant: entry-store density and the load bound
-/

/-- `PLight` is insensitive to replacing the reference map by one with the
same store length, size and capacity. -/
theorem PLight_congr (m m2 : DMap) (res : ProbeRes)
    (hlen : m2.entries.length = m.entries.length) (hsz : m2.size = m.size)
    (hcap : m2.capacity = m.capacity) (hp : PLight m2 res) : PLight m res := by
  cases res <;> simp only [PLight] at hp ⊢ <;> omega

/-- The probe loop of `try_emplace` satisfies the light bookkeeping facts. -/
theorem probeLoop_light :
    ∀ (fuel : Nat) (m : DMap) (ck cv cfp dist pos : Nat),
      PLight m (probeLoop m ck cv cfp dist pos fuel) := by
  intro fuel
  induction fuel with
  | zero => intro m ck cv cfp dist pos; simp [probeLoop, PLight]
  | succ n ih =>
    intro m ck cv cfp dist pos
    by_cases h1 : MAX_DIST ≤ dist
    · simp [probeLoop, h1, PLight]
    · by_cases h2 : ((m.buckets pos).isEmptyB || (m.buckets pos).isTombB) = true
      · simp [probeLoop, h1, h2, PLight]
      · by_cases h3 : ((m.buckets pos).occupied && (m.buckets pos).fingerprint == cfp
            && ((entryAt m (m.buckets pos).entryIndex).1 == ck)) = true
        · simp [probeLoop, h1, h2, h3, PLight]
        · by_cases h4 : ((m.buckets pos).occupied
              && decide ((m.buckets pos).distance < dist)) = true
          · simp only [probeLoop, h1, if_false, h2, Bool.false_eq_true, h3, h4, if_true]
            refine PLight_congr _ _ _ ?_ ?_ ?_ (ih _ _ _ _ _ _)
            · exact List.length_set m.entries _ _
            · rfl
            · rfl
          · simp only [probeLoop, h1, if_false, h2, Bool.false_eq_true, h3, h4, if_true]
            exact ih _ _ _ _ _ _

/-- One pass of the reinsert fold preserves the light invariant and adds at
most one entry per list element, never shrinking the capacity. -/
theorem reinsertGo_light (te : DMap → Nat → Nat → Option InsRes) (hte : TeL te) :
    ∀ (l : List (Nat × Nat)) (m m' : DMap), InvL m → reinsertGo te m l = some m' →
      InvL m' ∧ m'.size ≤ m.size + l.length ∧ m.capacity ≤ m'.capacity := by
  intro l
  induction l with
  | nil =>
    intro m m' hI hr
    simp only [reinsertGo, Option.some_inj] at hr
    subst hr
    exact ⟨hI, by omega, le_refl _⟩
  | cons kv rest ih =>
    intro m m' hI hr
    obtain ⟨k, v⟩ := kv
    simp only [reinsertGo] at hr
    cases hstep : te m k v with
    | none => rw [hstep] at hr; cases hr
    | some r =>
      rw [hstep] at hr
      have h1 := hte m k v r hI hstep
      have h2 := ih r.map m' h1.1 hr
      refine ⟨h2.1, ?_, le_trans h1.2.2 h2.2.2⟩
      have := h1.2.1
      have := h2.2.1
      simp only [List.length_cons]
      omega

/-- `rehash` to a valid capacity rebuilds a light-invariant table without
increasing the number of entries and with at least the requested capacity. -/
theorem rehashGo_light (te : DMap → Nat → Nat → Option InsRes) (hte : TeL te)
    (m : DMap) (newCap : Nat) (m' : DMap)
    (hlen : m.entries.length = m.size) (h16 : 16 ≤ newCap) (hdvd : 4 ∣ newCap)
    (hr : rehashGo te m newCap = some m') :
    InvL m' ∧ m'.size ≤ m.size ∧ newCap ≤ m'.capacity := by
  unfold rehashGo at hr
  have hI0 : InvL ⟨fun _ => Bucket.start, [], 0, newCap⟩ :=
    ⟨rfl, by simp, h16, hdvd⟩
  have hres := reinsertGo_light te hte (m.entries.take m.size) _ m' hI0 hr
  refine ⟨hres.1, ?_, hres.2.2⟩
  have htk : (m.entries.take m.size).length = m.size := by
    rw [List.length_take, hlen, Nat.min_self]
  have := hres.2.1
  simp only [htk] at this
  omega

/-- The post-probe continuation of one `try_emplace` call: from a table with
room for one more entry, every probe outcome that yields a `some` result
satisfies the light contract. -/
theorem afterProbe_light (te : DMap → Nat → Nat → Option InsRes) (hte : TeL te)
    (m1 : DMap) (r : InsRes) (pres : ProbeRes) (hI1 : InvL m1)
    (hroom : 4 * m1.size + 4 ≤ 3 * m1.capacity)
    (hp : PLight m1 pres) (hr : afterProbe te pres = some r) :
    InvL r.map ∧ r.map.size ≤ m1.size + 1 ∧ m1.capacity ≤ r.map.capacity := by
  obtain ⟨hlen1, hload1, h161, hdvd1⟩ := hI1
  cases pres with
  | placed m2 idx =>
    obtain ⟨hL, hS, hC, _⟩ := hp
    cases hr
    show InvL m2 ∧ m2.size ≤ m1.size + 1 ∧ m1.capacity ≤ m2.capacity
    exact ⟨⟨by omega, by omega, by omega, hC ▸ hdvd1⟩, by omega, by omega⟩
  | dup m2 idx =>
    obtain ⟨hL, hS, hC⟩ := hp
    cases hr
    show InvL m2 ∧ m2.size ≤ m1.size + 1 ∧ m1.capacity ≤ m2.capacity
    exact ⟨⟨by omega, by omega, by omega, hC ▸ hdvd1⟩, by omega, by omega⟩
  | exhausted m2 ck cv =>
    obtain ⟨hL, hS, hC⟩ := hp
    have hI2 : InvL m2 := ⟨by omega, by omega, by omega, hC ▸ hdvd1⟩
    simp only [afterProbe] at hr
    split at hr
    · cases hr
    · rename_i m3 hrh
      have hdvd2 : 4 ∣ m2.capacity * 2 := Dvd.dvd.mul_right hI2.2.2.2 2
      have h3 := rehashGo_light te hte m2 (m2.capacity * 2) m3 hI2.1 (by omega) hdvd2 hrh
      obtain ⟨hI3, hsz3, hcap3⟩ := h3
      cases hte0 : te m3 ck cv with
      | none => rw [hte0] at hr; simp at hr
      | some r0 =>
        rw [hte0] at hr
        simp only [Option.map, Option.map_some, Option.some_inj] at hr
        have h4 := hte m3 ck cv r0 hI3 hte0
        have hmap : r.map = r0.map := by rw [← hr]
        rw [hmap]
        exact ⟨h4.1, by omega, by omega⟩
  | noFuel => cases hr

/-- Every returning `try_emplace` call preserves the light invariant, grows
`size` by at most one, and never shrinks the capacity. -/
theorem tryEmplaceF_light (h : Nat → Nat) : ∀ fuel, TeL (tryEmplaceF h fuel) := by
  intro fuel
  induction fuel with
  | zero => intro m k v r _ hr; cases hr
  | succ n ih =>
    intro m k v r hI hr
    obtain ⟨hlen, hload, h16, hdvd⟩ := hI
    unfold tryEmplaceF at hr
    by_cases htr : loadTrigger m = true
    · -- the load check fired: rehash to twice the capacity, then probe
      rw [htr] at hr
      simp only [if_true] at hr
      cases hreh : rehashGo (tryEmplaceF h n) m (m.capacity * 2) with
      | none => rw [hreh] at hr; cases hr
      | some m1 =>
        rw [hreh] at hr
        have hdvd2 : 4 ∣ m.capacity * 2 := Dvd.dvd.mul_right hdvd 2
        have h1 := rehashGo_light _ ih m (m.capacity * 2) m1 hlen (by omega) hdvd2 hreh
        obtain ⟨⟨hlen1, hload1, h161, hdvd1⟩, hsz1, hcap1⟩ := h1
        have hroom : 4 * m1.size + 4 ≤ 3 * m1.capacity := by
          -- m1.size ≤ m.size, 4*m.size ≤ 3*m.capacity, m1.capacity ≥ 2*m.capacity
          omega
        have := afterProbe_light (tryEmplaceF h n) ih m1 r _
          ⟨hlen1, hload1, h161, hdvd1⟩ hroom
          (probeLoop_light (m1.capacity + 256) m1 k v (effFp h k) 0
            (effHash h k % m1.capacity)) hr
        refine ⟨this.1, by omega, by omega⟩
    · -- no rehash: the table has strict room for one more entry
      simp only [Bool.not_eq_true] at htr
      rw [htr] at hr
      simp only [Bool.false_eq_true, if_false] at hr
      have hlt : ¬ (3 * m.capacity ≤ 4 * m.size) := by
        simpa [loadTrigger] using htr
      have hroom : 4 * m.size + 4 ≤ 3 * m.capacity := by omega
      exact afterProbe_light (tryEmplaceF h n) ih m r _ ⟨hlen, hload, h16, hdvd⟩ hroom
        (probeLoop_light (m.capacity + 256) m k v (effFp h k) 0
          (effHash h k % m.capacity)) hr

end UDM

namespace UDM

/-- The state left by the deletion branch of `erase` satisfies the light
invariant whenever the starting state does and the store length is kept by
the compaction move. -/
theorem invL_del (m : DMap) (bk : Nat → Bucket) (l2 : List (Nat × Nat))
    (hI : InvL m) (hl2 : l2.length = m.entries.length) :
    InvL (DMap.mk bk l2.dropLast (m.size - 1) m.capacity) := by
  obtain ⟨hlen, hload, h16, hdvd⟩ := hI
  refine ⟨?_, ?_, ?_, ?_⟩
  · show l2.dropLast.length = m.size - 1
    rw [List.length_dropLast, hl2, hlen]
  · show 4 * (m.size - 1) ≤ 3 * m.capacity
    omega
  · exact h16
  · exact hdvd

/-- The probe loop of `erase` preserves the light invariant: a deletion
removes the popped entry and decrements `size`; a miss leaves the map
unchanged. -/
theorem eraseAux_light (m : DMap) (fpv k : Nat) :
    ∀ (fuel pos : Nat), InvL m → InvL (eraseAux m fpv k pos fuel).1 := by
  intro fuel
  induction fuel with
  | zero => intro pos hI; exact hI
  | succ n ih =>
    intro pos hI
    obtain ⟨hlen, hload, h16, hdvd⟩ := hI
    by_cases h1 : (m.buckets pos).isEmptyB = true
    · simpa [eraseAux, h1] using ⟨hlen, hload, h16, hdvd⟩
    · by_cases h2 : (m.buckets pos).isTombB = true
      · simp only [eraseAux, h1, Bool.false_eq_true, if_false, h2, if_true]
        exact ih _ ⟨hlen, hload, h16, hdvd⟩
      · by_cases h3 : ((m.buckets pos).occupied && (m.buckets pos).fingerprint == fpv
            && ((entryAt m (m.buckets pos).entryIndex).1 == k)) = true
        · simp only [eraseAux, h1, Bool.false_eq_true, if_false, h2, h3, if_true]
          refine invL_del m _ _ ⟨hlen, hload, h16, hdvd⟩ ?_
          split
          · exact List.length_set m.entries _ _
          · rfl
        · simp only [eraseAux, h1, Bool.false_eq_true, if_false, h2, h3, if_true]
          exact ih _ ⟨hlen, hload, h16, hdvd⟩

/-- `erase` preserves the light invariant. -/
theorem eraseF_light (h : Nat → Nat) (m : DMap) (k : Nat) (hI : InvL m) :
    InvL (eraseF h m k).1 :=
  eraseAux_light m (effFp h k) k MAX_DIST _ hI

/-- Every reachable state of the single-threaded map satisfies the light
invariant. -/
theorem reach_invL (h : Nat → Nat) : ∀ (m : DMap), Reach h m → InvL m := by
  intro m hre
  induction hre with
  | base => exact ⟨rfl, by simp [emptyMap], by simp [emptyMap], ⟨4, rfl⟩⟩
  | ins hrm heq ih => exact ((tryEmplaceF_light _ _) _ _ _ _ ih heq).1
  | del k hrm ih => exact eraseF_light _ _ k ih

end UDM

namespace UDM

/-- C6.  Load-factor invariant: after every insert operation that returns,
`size ≤ capacity × 0.75` holds (as `4 * size ≤ 3 * capacity`; reachable
capacities are multiples of 4, for which `capacity * 0.75f` is exact), for
every hash provider, fuel, and reachable starting state.  The pre-insert
check rehashes to double capacity whenever the bound would otherwise be
exceeded (`tryEmplaceF` branches on `loadTrigger`). -/
theorem c6_load_factor_bound (h : Nat → Nat) (fuel : Nat) (m : DMap) (k v : Nat)
    (r : InsRes) (hre : Reach h m) (hres : tryEmplaceF h fuel m k v = some r) :
    4 * r.map.size ≤ 3 * r.map.capacity :=
  ((tryEmplaceF_light h fuel) m k v r (reach_invL h m hre) hres).1.2.1

/-- Witness for C6: inserting key 1 into the freshly constructed map returns,
and the resulting table satisfies the load bound. -/
theorem c6_load_factor_bound_witness :
    4 * (getRes (tryEmplaceF hid 9 emptyMap 1 100)).map.size ≤
      3 * (getRes (tryEmplaceF hid 9 emptyMap 1 100)).map.capacity :=
  c6_load_factor_bound hid 9 emptyMap 1 100 _ Reach.base
    (opt_eq_some_getD _ dfltRes (by decide))

/-- Reading off the entry store over `List.range`. -/
theorem map_getD_range (α : Type) (l : List α) (d : α) :
    (List.range l.length).map (fun i => l.getD i d) = l := by
  induction l with
  | nil => rfl
  | cons a t ih =>
    simp only [List.length_cons, List.range_succ_eq_map, List.map_cons, List.getD_cons_zero,
      List.map_map]
    refine congrArg (List.cons a) ?_
    have : ((fun i => (a :: t).getD i d) ∘ Nat.succ) = fun i => t.getD i d := by
      funext i
      simp [List.getD_cons_succ]
    rw [this, ih]

/-- C7.  Dense-packing invariant: in every reachable state (any sequence of
inserts and erases from the fresh map) the entry store holds exactly `size`
entries at positions `[0, size)`, and the `begin()`/`end()` iteration walks
exactly those entries, yielding `size` pairs. -/
theorem c7_dense_iteration (h : Nat → Nat) (m : DMap) (hre : Reach h m) :
    m.entries.length = m.size ∧ iterPairs m = m.entries ∧
      (iterPairs m).length = m.size := by
  have hlen : m.entries.length = m.size := (reach_invL h m hre).1
  have hit : iterPairs m = m.entries := by
    unfold iterPairs
    rw [← hlen]
    exact map_getD_range (Nat × Nat) m.entries (0, 0)
  exact ⟨hlen, hit, by rw [hit, hlen]⟩

/-- Witness for C7 at a concrete reachable state: insert keys 1 and 17, then
erase key 1. -/
theorem c7_dense_iteration_witness :
    (eraseF hid (getRes (tryEmplaceF hid 9
        (getRes (tryEmplaceF hid 9 emptyMap 1 100)).map 17 200)).map 1).1.entries.length =
      (eraseF hid (getRes (tryEmplaceF hid 9
        (getRes (tryEmplaceF hid 9 emptyMap 1 100)).map 17 200)).map 1).1.size ∧
    iterPairs (eraseF hid (getRes (tryEmplaceF hid 9
        (getRes (tryEmplaceF hid 9 emptyMap 1 100)).map 17 200)).map 1).1 =
      (eraseF hid (getRes (tryEmplaceF hid 9
        (getRes (tryEmplaceF hid 9 emptyMap 1 100)).map 17 200)).map 1).1.entries ∧
    (iterPairs (eraseF hid (getRes (tryEmplaceF hid 9
        (getRes (tryEmplaceF hid 9 emptyMap 1 100)).map 17 200)).map 1).1).length =
      (eraseF hid (getRes (tryEmplaceF hid 9
        (getRes (tryEmplaceF hid 9 emptyMap 1 100)).map 17 200)).map 1).1.size :=
  c7_dense_iteration hid _
    (Reach.del 1 (Reach.ins
      (Reach.ins Reach.base (opt_eq_some_getD _ dfltRes (by decide)))
      (opt_eq_some_getD _ dfltRes (by decide))))

end UDM

namespace UDM

/-!
## Helper lemmas for the full table invariant
-/

theorem fprint_lt_256 (h : Nat → Nat) (k : Nat) : fprint h k < 256 :=
  Nat.mod_lt _ (by norm_num)

theorem bupd_self (f : Nat → Bucket) (p : Nat) (b : Bucket) : bupd f p b p = b := by
  simp [bupd]

theorem bupd_ne (f : Nat → Bucket) (p : Nat) (b : Bucket) (q : Nat) (hq : q ≠ p) :
    bupd f p b q = f q := by
  simp [bupd, hq]

theorem occ_not_emptyB (b : Bucket) (hb : b.occupied = true) : b.isEmptyB = false := by
  simp [Bucket.isEmptyB, hb]

theorem occ_not_tombB (b : Bucket) (hb : b.occupied = true) : b.isTombB = false := by
  simp [Bucket.isTombB, hb]

theorem occ_of_not_empty_tomb (b : Bucket) (he : ¬ b.isEmptyB = true)
    (ht : ¬ b.isTombB = true) : b.occupied = true := by
  cases b with
  | mk fp d o t i => cases o <;> cases t <;> simp_all [Bucket.isEmptyB, Bucket.isTombB]

theorem entryAt_append_lt (l2 : List (Nat × Nat)) (e : Nat × Nat) (i : Nat)
    (hi : i < l2.length) : (l2 ++ [e]).getD i (0, 0) = l2.getD i (0, 0) := by
  rw [List.getD_append _ _ _ _ hi]

theorem entryAt_append_self (l2 : List (Nat × Nat)) (e : Nat × Nat) :
    (l2 ++ [e]).getD l2.length (0, 0) = e := by
  rw [List.getD_append_right _ _ _ _ (le_refl _)]
  simp

theorem getD_set_self (l : List (Nat × Nat)) (i : Nat) (e : Nat × Nat)
    (hi : i < l.length) : (l.set i e).getD i (0, 0) = e := by
  rw [List.getD_eq_getElem _ _ (by simpa), List.getElem_set_self]

theorem getD_set_ne (l : List (Nat × Nat)) (i j : Nat) (e : Nat × Nat)
    (hij : i ≠ j) : (l.set i e).getD j (0, 0) = l.getD j (0, 0) := by
  by_cases hj : j < l.length
  · rw [List.getD_eq_getElem _ _ (by simpa), List.getD_eq_getElem _ _ hj,
      List.getElem_set_ne hij]
  · rw [List.getD_eq_default _ _ (by simp; omega), List.getD_eq_default _ _ (by omega)]

theorem nodupK_index_eq (m : DMap) (hnd : NodupK m) (i j : Nat)
    (hi : i < m.entries.length) (hj : j < m.entries.length)
    (hkey : (entryAt m i).1 = (entryAt m j).1) : i = j := by
  unfold entryAt at hkey
  rw [List.getD_eq_getElem _ _ hi, List.getD_eq_getElem _ _ hj] at hkey
  have hinj := List.nodup_iff_injective_get.1 hnd
  have hgl : (m.entries.map Prod.fst).get ⟨i, by simpa⟩ =
      (m.entries.map Prod.fst).get ⟨j, by simpa⟩ := by
    rw [List.get_eq_getElem, List.get_eq_getElem, List.getElem_map, List.getElem_map]
    exact hkey
  exact congrArg Fin.val (hinj hgl)

theorem key_mem_of_lt (m : DMap) (i : Nat) (hi : i < m.entries.length) :
    (entryAt m i).1 ∈ m.entries.map Prod.fst := by
  unfold entryAt
  rw [List.getD_eq_getElem _ _ hi]
  exact List.mem_map_of_mem Prod.fst (List.getElem_mem hi)

theorem nodup_set_fresh (a : Nat) :
    ∀ (K : List Nat) (i : Nat), K.Nodup → a ∉ K → (K.set i a).Nodup := by
  intro K
  induction K with
  | nil => intro i _ _; simp
  | cons x t ih =>
    intro i hnd ha
    rw [List.nodup_cons] at hnd
    cases i with
    | zero =>
      rw [List.set_cons_zero, List.nodup_cons]
      exact ⟨fun hmem => ha (List.mem_cons_of_mem _ hmem), hnd.2⟩
    | succ n =>
      rw [List.set_cons_succ, List.nodup_cons]
      refine ⟨?_, ih n hnd.2 (fun hmem => ha (List.mem_cons_of_mem _ hmem))⟩
      intro hmem
      rcases List.mem_or_eq_of_mem_set hmem with hx | hx
      · exact hnd.1 hx
      · exact ha (hx ▸ List.mem_cons_self x t)

theorem displaced_not_mem (K : List Nat) (i a : Nat) (hnd : K.Nodup) (ha : a ∉ K)
    (hi : i < K.length) : K[i] ∉ K.set i a := by
  intro hmem
  obtain ⟨j, hj, hje⟩ := List.mem_iff_getElem.1 hmem
  have hjlen : j < K.length := by simpa using hj
  by_cases hij : i = j
  · subst hij
    rw [List.getElem_set_self] at hje
    exact ha (hje ▸ List.getElem_mem hi)
  · rw [List.getElem_set_ne hij] at hje
    exact hij ((List.Nodup.getElem_inj_iff hnd).1 hje).symm

theorem set_extract_perm (p : Nat × Nat) :
    ∀ (l : List (Nat × Nat)) (i : Nat), i < l.length →
      ((l.set i p) ++ [l.getD i (0, 0)]).Perm (l ++ [p]) := by
  intro l
  induction l with
  | nil => intro i hi; simp at hi
  | cons x t ih =>
    intro i hi
    cases i with
    | zero =>
      simp only [List.set_cons_zero, List.getD_cons_zero, List.cons_append]
      refine List.Perm.trans (List.Perm.cons p List.perm_append_comm) ?_
      refine List.Perm.trans (List.Perm.swap x p t) ?_
      exact List.Perm.cons x (show ([p] ++ t).Perm (t ++ [p]) from List.perm_append_comm)
    | succ n =>
      simp only [List.set_cons_succ, List.getD_cons_succ, List.cons_append]
      exact (ih n (by simpa using hi)).cons x

theorem nodup_append_fresh (K : List Nat) (a : Nat) (hnd : K.Nodup) (ha : a ∉ K) :
    (K ++ [a]).Nodup := by
  rw [List.nodup_append]
  exact ⟨hnd, List.nodup_singleton a, fun x hx hmem => by
    simp only [List.mem_singleton] at hmem
    exact ha (hmem ▸ hx)⟩

end UDM

namespace UDM

/-- Mod-identity facts for the truncations performed by `set_occupied`. -/
theorem setOcc_norm (h : Nat → Nat) (k dist idx : Nat) (hdist : dist < MAX_DIST)
    (hidx : idx < 2 ^ 46) :
    Bucket.setOcc (fprint h k) dist idx = ⟨fprint h k, dist, true, false, idx⟩ := by
  unfold Bucket.setOcc
  rw [Nat.mod_eq_of_lt (fprint_lt_256 h k), Nat.mod_eq_of_lt (by unfold MAX_DIST at hdist; omega),
    Nat.mod_eq_of_lt hidx]

/-- Placement of a fresh key at an unoccupied slot at the end of its probe
path yields an invariant, duplicate-free table storing the old entries plus
the new pair. -/
theorem invT_place (h : Nat → Nat) (m : DMap) (ck cv dist pos : Nat)
    (hInv : InvT h m) (hnd : NodupK m) (hfresh : freshK m ck)
    (hsmall : m.entries.length < 2 ^ 46) (hdist : dist < MAX_DIST)
    (hpos : pos = (effHash h ck + dist) % m.capacity)
    (hpath : ∀ j, j < dist → (m.buckets ((effHash h ck + j) % m.capacity)).isEmptyB = false)
    (hnocc : (m.buckets pos).occupied = false) :
    InvT h (DMap.mk (bupd m.buckets pos (Bucket.setOcc (fprint h ck) dist m.entries.length))
        (m.entries ++ [(ck, cv)]) (m.size + 1) m.capacity) ∧
      NodupK (DMap.mk (bupd m.buckets pos (Bucket.setOcc (fprint h ck) dist m.entries.length))
        (m.entries ++ [(ck, cv)]) (m.size + 1) m.capacity) := by
  have hcap := hInv.capPos
  have hplt : pos < m.capacity := by rw [hpos]; exact Nat.mod_lt _ hcap
  have hBn := setOcc_norm h ck dist m.entries.length hdist hsmall
  constructor
  · refine ⟨hcap, by simp [hInv.lenSz], ?_, ?_, ?_⟩
    · -- occOk
      intro q hq hocc
      by_cases hqp : q = pos
      · subst hqp
        have hbq : bupd m.buckets q (Bucket.setOcc (fprint h ck) dist m.entries.length) q =
            ⟨fprint h ck, dist, true, false, m.entries.length⟩ := by
          rw [bupd_self, hBn]
        refine ⟨?_, ?_, ?_, ?_, ?_⟩ <;>
          simp only [hbq, entryAt, List.length_append, List.length_cons, List.length_nil]
        · omega
        · rw [entryAt_append_self]
        · exact hdist
        · rw [entryAt_append_self]; exact hpos
        · intro j hj
          rw [entryAt_append_self]
          by_cases hsp : (effHash h ck + j) % m.capacity = q
          · rw [hsp, hbq]
            rfl
          · rw [bupd_ne _ _ _ _ hsp]
            exact hpath j hj
      · have hq' : q < m.capacity := by simpa using hq
        have hbq : bupd m.buckets pos (Bucket.setOcc (fprint h ck) dist m.entries.length) q =
            m.buckets q := bupd_ne _ _ _ _ hqp
        have hoccq : (m.buckets q).occupied = true := by simpa only [hbq] using hocc
        obtain ⟨heiLt, hfpEq, hdLt, hposEq, hpath0⟩ := hInv.occOk q hq' hoccq
        have hent : (m.entries ++ [(ck, cv)]).getD ((m.buckets q).entryIndex) (0, 0) =
            m.entries.getD ((m.buckets q).entryIndex) (0, 0) :=
          entryAt_append_lt _ _ _ heiLt
        refine ⟨?_, ?_, ?_, ?_, ?_⟩ <;>
          simp only [entryAt, hbq, hent, List.length_append, List.length_cons, List.length_nil]
        · omega
        · exact hfpEq
        · exact hdLt
        · exact hposEq
        · intro j hj
          by_cases hsp : (effHash h (m.entries.getD (m.buckets q).entryIndex (0, 0)).1 + j) %
              m.capacity = pos
          · rw [hsp, bupd_self, hBn]
            rfl
          · rw [bupd_ne _ _ _ _ hsp]
            exact hpath0 j hj
    · -- inj
      intro p q hp hq hop hoq heq
      simp only at hp hq hop hoq heq
      by_cases hpp : p = pos <;> by_cases hqq : q = pos
      · rw [hpp, hqq]
      · exfalso
        rw [hpp, bupd_self, hBn] at heq
        rw [bupd_ne _ _ _ _ hqq] at heq hoq
        have := (hInv.occOk q hq hoq).eiLt
        simp at heq
        omega
      · exfalso
        rw [hqq, bupd_self, hBn] at heq
        rw [bupd_ne _ _ _ _ hpp] at heq hop
        have := (hInv.occOk p hp hop).eiLt
        simp at heq
        omega
      · rw [bupd_ne _ _ _ _ hpp] at heq hop
        rw [bupd_ne _ _ _ _ hqq] at heq hoq
        exact hInv.inj p q hp hq hop hoq heq
    · -- surj
      intro i hi
      simp only [List.length_append, List.length_cons, List.length_nil] at hi
      by_cases hilt : i < m.entries.length
      · obtain ⟨p, hp, hop, hei⟩ := hInv.surj i hilt
        have hppos : p ≠ pos := by
          intro hc
          rw [hc] at hop
          rw [hop] at hnocc
          cases hnocc
        refine ⟨p, hp, ?_, ?_⟩
        · show (bupd m.buckets pos (Bucket.setOcc (fprint h ck) dist m.entries.length)
            p).occupied = true
          rw [bupd_ne _ _ _ _ hppos]; exact hop
        · show (bupd m.buckets pos (Bucket.setOcc (fprint h ck) dist m.entries.length)
            p).entryIndex = i
          rw [bupd_ne _ _ _ _ hppos]; exact hei
      · have hieq : i = m.entries.length := by omega
        refine ⟨pos, hplt, ?_, ?_⟩
        · show (bupd m.buckets pos (Bucket.setOcc (fprint h ck) dist m.entries.length)
            pos).occupied = true
          rw [bupd_self, hBn]
        · show (bupd m.buckets pos (Bucket.setOcc (fprint h ck) dist m.entries.length)
            pos).entryIndex = i
          rw [bupd_self, hBn, hieq]
  · -- NodupK
    show ((m.entries ++ [(ck, cv)]).map Prod.fst).Nodup
    rw [List.map_append]
    exact nodup_append_fresh _ ck hnd hfresh

end UDM

namespace UDM

/-- A robin-hood swap at an occupied slot on the probe path of a fresh key
preserves the full invariant and converts the carried element: the displaced
entry's key becomes the carried key (fresh for the updated store), the
entry multiset is unchanged as a whole, and the displaced element resumes
probing from the next slot at its recorded distance plus one, with a fully
non-empty probe path behind it. -/
theorem invT_swap (h : Nat → Nat) (m : DMap) (ck cv dist pos : Nat) (MS : DMap)
    (hMS : MS = DMap.mk
      (bupd m.buckets pos
        (Bucket.mk (fprint h ck % 256) (dist % 256) (m.buckets pos).occupied
          (m.buckets pos).tombstone (m.buckets pos).entryIndex))
      (m.entries.set (m.buckets pos).entryIndex (ck, cv)) m.size m.capacity)
    (hInv : InvT h m) (hnd : NodupK m) (hfresh : freshK m ck)
    (hdist : dist < MAX_DIST)
    (hpos : pos = (effHash h ck + dist) % m.capacity)
    (hpath : ∀ j, j < dist → (m.buckets ((effHash h ck + j) % m.capacity)).isEmptyB = false)
    (hocc : (m.buckets pos).occupied = true) :
    InvT h MS ∧ NodupK MS ∧
      freshK MS (entryAt m (m.buckets pos).entryIndex).1 ∧
      (MS.entries ++ [entryAt m (m.buckets pos).entryIndex]).Perm (m.entries ++ [(ck, cv)]) ∧
      (pos + 1) % m.capacity =
        (effHash h (entryAt m (m.buckets pos).entryIndex).1 +
          ((m.buckets pos).distance + 1)) % m.capacity ∧
      (∀ j, j < (m.buckets pos).distance + 1 →
        (MS.buckets ((effHash h (entryAt m (m.buckets pos).entryIndex).1 + j) %
          m.capacity)).isEmptyB = false) ∧
      (m.buckets pos).fingerprint = fprint h (entryAt m (m.buckets pos).entryIndex).1 ∧
      MS.capacity = m.capacity ∧ MS.entries.length = m.entries.length := by
  have hcap := hInv.capPos
  have hplt : pos < m.capacity := by rw [hpos]; exact Nat.mod_lt _ hcap
  obtain ⟨heiLt, hfpEq, hdLt, hposEq, hpath0⟩ := hInv.occOk pos hplt hocc
  have hbk : ∀ q, MS.buckets q = bupd m.buckets pos
      (Bucket.mk (fprint h ck % 256) (dist % 256) (m.buckets pos).occupied
        (m.buckets pos).tombstone (m.buckets pos).entryIndex) q := by
    intro q; rw [hMS]
  have hen : MS.entries = m.entries.set (m.buckets pos).entryIndex (ck, cv) := by rw [hMS]
  have hcap' : MS.capacity = m.capacity := by rw [hMS]
  have hsz : MS.size = m.size := by rw [hMS]
  have hlen' : MS.entries.length = m.entries.length := by rw [hen, List.length_set]
  -- pointwise transport facts
  have hocc2 : ∀ q, (MS.buckets q).occupied = (m.buckets q).occupied := by
    intro q
    rw [hbk q]
    by_cases hqp : q = pos
    · subst hqp; rw [bupd_self]
    · rw [bupd_ne _ _ _ _ hqp]
  have hei2 : ∀ q, (MS.buckets q).entryIndex = (m.buckets q).entryIndex := by
    intro q
    rw [hbk q]
    by_cases hqp : q = pos
    · subst hqp; rw [bupd_self]
    · rw [bupd_ne _ _ _ _ hqp]
  have hemp2 : ∀ q, (MS.buckets q).isEmptyB = (m.buckets q).isEmptyB := by
    intro q
    rw [hbk q]
    by_cases hqp : q = pos
    · subst hqp; rw [bupd_self]; rfl
    · rw [bupd_ne _ _ _ _ hqp]
  have hentSelf : entryAt MS (m.buckets pos).entryIndex = (ck, cv) := by
    show MS.entries.getD _ _ = _
    rw [hen]
    exact getD_set_self _ _ _ heiLt
  have hentNe : ∀ i, (m.buckets pos).entryIndex ≠ i →
      entryAt MS i = entryAt m i := by
    intro i hne
    show MS.entries.getD _ _ = _
    rw [hen]
    exact getD_set_ne _ _ _ _ hne
  have hkeyIdx : (entryAt m (m.buckets pos).entryIndex).1 =
      (m.entries.map Prod.fst).getD (m.buckets pos).entryIndex 0 := by
    unfold entryAt
    rw [List.getD_eq_getElem _ _ heiLt, List.getD_eq_getElem _ _ (by simpa using heiLt),
      List.getElem_map]
  have hkeys : MS.entries.map Prod.fst =
      (m.entries.map Prod.fst).set (m.buckets pos).entryIndex ck := by
    rw [hen]
    exact List.map_set ..
  have hlensz := hInv.lenSz
  refine ⟨⟨by omega, by omega, ?_, ?_, ?_⟩, ?_, ?_, ?_, ?_, ?_, hfpEq, hcap', hlen'⟩
  · -- occOk
    intro q hq hoccq
    have hq' : q < m.capacity := by omega
    have hoccq' : (m.buckets q).occupied = true := by rw [← hocc2 q]; exact hoccq
    by_cases hqp : q = pos
    · subst hqp
      have hd256 : dist < 256 := by
        have hmd : MAX_DIST = 255 := rfl
        omega
      have hdm : dist % 256 = dist := Nat.mod_eq_of_lt hd256
      have hfpm : fprint h ck % 256 = fprint h ck := Nat.mod_eq_of_lt (fprint_lt_256 h ck)
      have hbq : MS.buckets q = Bucket.mk (fprint h ck % 256) (dist % 256)
          (m.buckets q).occupied (m.buckets q).tombstone (m.buckets q).entryIndex := by
        rw [hbk q, bupd_self]
      refine ⟨?_, ?_, ?_, ?_, ?_⟩ <;> simp only [hbq, hdm, hfpm]
      · rw [hlen']; exact heiLt
      · rw [hentSelf]
      · exact hdist
      · rw [hentSelf, hcap']
        exact hpos
      · intro j hj
        rw [hentSelf]
        rw [hcap', hemp2]
        exact hpath j hj
    · have hne : (m.buckets pos).entryIndex ≠ (m.buckets q).entryIndex := by
        intro hc
        exact hqp (hInv.inj q pos hq' hplt hoccq' hocc hc.symm)
      obtain ⟨hA, hB, hC, hD, hE⟩ := hInv.occOk q hq' hoccq'
      have hbq : MS.buckets q = m.buckets q := by
        rw [hbk q, bupd_ne _ _ _ _ hqp]
      refine ⟨?_, ?_, ?_, ?_, ?_⟩ <;> rw [hbq]
      · show (m.buckets q).entryIndex < MS.entries.length
        omega
      · show (m.buckets q).fingerprint = fprint h (entryAt MS (m.buckets q).entryIndex).1
        rw [hentNe _ hne]
        exact hB
      · exact hC
      · show q = (effHash h (entryAt MS (m.buckets q).entryIndex).1 +
          (m.buckets q).distance) % MS.capacity
        rw [hentNe _ hne, hcap']
        exact hD
      · intro j hj
        rw [hentNe _ hne]
        rw [hcap', hemp2]
        exact hE j hj
  · -- inj
    intro p q hp hq hopq hoqq heq
    rw [hocc2] at hopq hoqq
    rw [hei2, hei2] at heq
    exact hInv.inj p q (by omega) (by omega) hopq hoqq heq
  · -- surj
    intro i hi
    obtain ⟨p, hp, hop, hei⟩ := hInv.surj i (by omega)
    exact ⟨p, by omega, by rw [hocc2]; exact hop, by rw [hei2]; exact hei⟩
  · -- NodupK
    show (MS.entries.map Prod.fst).Nodup
    rw [hkeys]
    exact nodup_set_fresh ck _ _ hnd hfresh
  · -- freshK of the displaced key
    show (entryAt m (m.buckets pos).entryIndex).1 ∉ MS.entries.map Prod.fst
    rw [hkeys, hkeyIdx, List.getD_eq_getElem _ _ (by simpa using heiLt)]
    exact displaced_not_mem _ _ ck hnd hfresh (by simpa using heiLt)
  · -- permutation
    rw [hen]
    exact set_extract_perm (ck, cv) m.entries _ heiLt
  · -- the next-slot equation for the displaced carried element
    conv_lhs => rw [hposEq]
    rw [Nat.mod_add_mod, Nat.add_assoc]
  · -- the probe path behind the displaced element is non-empty
    intro j hj
    rw [hemp2]
    by_cases hjd : j < (m.buckets pos).distance
    · exact hpath0 j hjd
    · have hje : j = (m.buckets pos).distance := by omega
      subst hje
      rw [← hposEq]
      exact occ_not_emptyB _ hocc

end UDM

namespace UDM

theorem not_occ_of_empty_or_tomb (b : Bucket) (hb : (b.isEmptyB || b.isTombB) = true) :
    b.occupied = false := by
  cases b with
  | mk fp d o t i => cases o <;> simp_all [Bucket.isEmptyB, Bucket.isTombB]

/-- Master lemma: on an invariant, duplicate-free table, the probe loop of
`try_emplace` carrying a key absent from the store (with a correct position /
distance relation and a fully non-empty walked path) satisfies the fresh
insertion contract `PFresh` for the target multiset `base`. -/
theorem probeLoop_fresh (h : Nat → Nat) :
    ∀ (fuel : Nat) (m : DMap) (ck cv dist pos : Nat) (base : List (Nat × Nat)),
      InvT h m → NodupK m → freshK m ck → m.entries.length < 2 ^ 46 →
      pos = (effHash h ck + dist) % m.capacity →
      (∀ j, j < dist → (m.buckets ((effHash h ck + j) % m.capacity)).isEmptyB = false) →
      (m.entries ++ [(ck, cv)]).Perm base →
      PFresh h base m.capacity (probeLoop m ck cv (fprint h ck) dist pos fuel) := by
  intro fuel
  induction fuel with
  | zero => intro m ck cv dist pos base _ _ _ _ _ _ _; simp [probeLoop, PFresh]
  | succ n ih =>
    intro m ck cv dist pos base hInv hnd hfresh hsmall hpos hpath hperm
    by_cases h1 : MAX_DIST ≤ dist
    · simp only [probeLoop, h1, if_true]
      exact ⟨hInv, hnd, hfresh, hperm, rfl⟩
    · have hdist : dist < MAX_DIST := by omega
      by_cases h2 : ((m.buckets pos).isEmptyB || (m.buckets pos).isTombB) = true
      · simp only [probeLoop, h1, if_false, h2, if_true, Bool.false_eq_true]
        have hnocc : (m.buckets pos).occupied = false :=
          not_occ_of_empty_or_tomb _ h2
        obtain ⟨hI, hN⟩ :=
          invT_place h m ck cv dist pos hInv hnd hfresh hsmall hdist hpos hpath hnocc
        exact ⟨hI, hN, hperm, rfl⟩
      · by_cases h3 : ((m.buckets pos).occupied && (m.buckets pos).fingerprint == fprint h ck
            && ((entryAt m (m.buckets pos).entryIndex).1 == ck)) = true
        · exfalso
          simp only [Bool.and_eq_true, beq_iff_eq] at h3
          obtain ⟨⟨hoc, _⟩, hkey⟩ := h3
          have hplt : pos < m.capacity := by
            rw [hpos]; exact Nat.mod_lt _ hInv.capPos
          have heiLt := (hInv.occOk pos hplt hoc).eiLt
          exact hfresh (hkey ▸ key_mem_of_lt m _ heiLt)
        · by_cases h4 : ((m.buckets pos).occupied
              && decide ((m.buckets pos).distance < dist)) = true
          · simp only [probeLoop, h1, if_false, h2, h3, h4, if_true, Bool.false_eq_true]
            have hoc : (m.buckets pos).occupied = true := by
              simp only [Bool.and_eq_true] at h4; exact h4.1
            obtain ⟨hI, hN, hF, hPerm, hPos', hPath', hFp, hCap', hLen'⟩ :=
              invT_swap h m ck cv dist pos _ rfl hInv hnd hfresh hdist hpos hpath hoc
            rw [hFp]
            exact ih _ _ _ _ _ base hI hN hF
              (by rw [hLen']; exact hsmall) hPos' hPath' (hPerm.trans hperm)
          · simp only [probeLoop, h1, if_false, h2, h3, h4, if_true, Bool.false_eq_true]
            refine ih m ck cv (dist + 1) ((pos + 1) % m.capacity) base hInv hnd hfresh hsmall
              ?_ ?_ hperm
            · rw [hpos, Nat.mod_add_mod, Nat.add_assoc]
            · intro j hj
              by_cases hjd : j < dist
              · exact hpath j hjd
              · have hje : j = dist := by omega
                subst hje
                rw [← hpos]
                have : ¬ ((m.buckets pos).isEmptyB || (m.buckets pos).isTombB) = true := h2
                simp only [Bool.or_eq_true, not_or, Bool.not_eq_true] at this
                exact this.1

end UDM

namespace UDM

/-- The rebuilt table at the start of `rehash`: all buckets empty, no
entries. -/
theorem invT_rebuilt (h : Nat → Nat) (newCap : Nat) (hc : 0 < newCap) :
    InvT h (DMap.mk (fun _ => Bucket.start) [] 0 newCap) := by
  refine ⟨hc, rfl, ?_, ?_, ?_⟩
  · intro p _ hocc
    exact absurd hocc (by simp [Bucket.start])
  · intro p q _ _ hop _ _
    exact absurd hop (by simp [Bucket.start])
  · intro i hi
    simp at hi

/-- Folding fresh inserts over a list of pairwise-distinct new keys extends
the store by exactly that list (as a multiset) and preserves the invariants. -/
theorem reinsertGo_fresh (h : Nat → Nat) (te : DMap → Nat → Nat → Option InsRes)
    (hte : TeF h te) :
    ∀ (l : List (Nat × Nat)) (m m' : DMap), InvT h m → NodupK m →
      (∀ k0, k0 ∈ l.map Prod.fst → freshK m k0) → (l.map Prod.fst).Nodup →
      m.entries.length + l.length ≤ 2 ^ 46 →
      reinsertGo te m l = some m' →
      InvT h m' ∧ NodupK m' ∧ m'.entries.Perm (m.entries ++ l) := by
  intro l
  induction l with
  | nil =>
    intro m m' hI hN _ _ _ hr
    simp only [reinsertGo, Option.some_inj] at hr
    subst hr
    exact ⟨hI, hN, by simp⟩
  | cons kv rest ih =>
    intro m m' hI hN hfr hndl hlen hr
    obtain ⟨k, v⟩ := kv
    simp only [reinsertGo] at hr
    cases hstep : te m k v with
    | none => rw [hstep] at hr; cases hr
    | some r =>
      rw [hstep] at hr
      have hsm : m.entries.length < 2 ^ 46 := by
        simp only [List.length_cons] at hlen; omega
      obtain ⟨hI1, hN1, hP1, _⟩ := hte m k v r hI hN (hfr k (by simp)) hsm hstep
      have hlen1 : r.map.entries.length = m.entries.length + 1 := by
        have := hP1.length_eq; simpa using this
      have hfr1 : ∀ k0, k0 ∈ rest.map Prod.fst → freshK r.map k0 := by
        intro k0 hk0
        have hk0m : k0 ∉ m.entries.map Prod.fst := hfr k0 (by simp [hk0])
        have hkk : k0 ≠ k := by
          simp only [List.map_cons, List.nodup_cons] at hndl
          intro hc; subst hc; exact hndl.1 hk0
        have hkp : (r.map.entries.map Prod.fst).Perm (k :: m.entries.map Prod.fst) := by
          simpa using hP1.map Prod.fst
        intro hmem
        have hmem2 := hkp.mem_iff.1 hmem
        simp only [List.mem_cons] at hmem2
        rcases hmem2 with hc | hc
        · exact hkk hc
        · exact hk0m hc
      have hndr : (rest.map Prod.fst).Nodup := by
        simp only [List.map_cons, List.nodup_cons] at hndl; exact hndl.2
      have hlen2 : r.map.entries.length + rest.length ≤ 2 ^ 46 := by
        simp only [List.length_cons] at hlen; omega
      obtain ⟨hI2, hN2, hP2⟩ := ih r.map m' hI1 hN1 hfr1 hndr hlen2 hr
      refine ⟨hI2, hN2, ?_⟩
      refine hP2.trans ?_
      refine (hP1.append_right rest).trans ?_
      exact List.perm_middle.symm

/-- `rehash` of an invariant, duplicate-free table to a positive capacity
rebuilds an invariant table holding the same entries. -/
theorem rehashGo_fresh (h : Nat → Nat) (te : DMap → Nat → Nat → Option InsRes)
    (hte : TeF h te) (m : DMap) (newCap : Nat) (m' : DMap)
    (hInv : InvT h m) (hnd : NodupK m) (hsmall : m.entries.length ≤ 2 ^ 46)
    (hcap : 0 < newCap) (hr : rehashGo te m newCap = some m') :
    InvT h m' ∧ NodupK m' ∧ m'.entries.Perm m.entries := by
  unfold rehashGo at hr
  have htake : m.entries.take m.size = m.entries := by
    rw [← hInv.lenSz]; exact List.take_length m.entries
  rw [htake] at hr
  have h0 := invT_rebuilt h newCap hcap
  obtain ⟨hI, hN, hP⟩ := reinsertGo_fresh h te hte m.entries _ m' h0
    (by simp [NodupK]) (fun k0 _ => by simp [freshK]) hnd (by simpa using hsmall) hr
  exact ⟨hI, hN, by simpa using hP⟩

/-- The post-probe continuation of `try_emplace` on a fresh-key probe
outcome: every returning path yields an invariant, duplicate-free table
holding exactly the target multiset, and reports `inserted = true`. -/
theorem afterProbe_fresh (h : Nat → Nat) (te : DMap → Nat → Nat → Option InsRes)
    (hte : TeF h te) (m1 : DMap) (r : InsRes) (pres : ProbeRes)
    (base : List (Nat × Nat)) (hbase : base.length ≤ 2 ^ 46)
    (hp : PFresh h base m1.capacity pres) (hr : afterProbe te pres = some r) :
    InvT h r.map ∧ NodupK r.map ∧ r.map.entries.Perm base ∧ r.inserted = true := by
  cases pres with
  | placed m2 idx =>
    cases hr
    obtain ⟨hI, hN, hP, _⟩ := hp
    exact ⟨hI, hN, hP, rfl⟩
  | dup m2 idx => exact hp.elim
  | exhausted m2 ck2 cv2 =>
    obtain ⟨hI2, hN2, hF2, hP2, hC2⟩ := hp
    simp only [afterProbe] at hr
    split at hr
    · cases hr
    · rename_i m3 hrh
      have hlen2 : m2.entries.length + 1 = base.length := by simpa using hP2.length_eq
      obtain ⟨hI3, hN3, hP3⟩ := rehashGo_fresh h te hte m2 _ m3 hI2 hN2 (by omega)
        (by have := hI2.capPos; omega) hrh
      have hF3 : freshK m3 ck2 := by
        intro hmem
        exact hF2 ((hP3.map Prod.fst).mem_iff.1 hmem)
      have hs3 : m3.entries.length < 2 ^ 46 := by
        have := hP3.length_eq
        omega
      cases hte0 : te m3 ck2 cv2 with
      | none => rw [hte0] at hr; simp at hr
      | some r0 =>
        rw [hte0] at hr
        simp only [Option.map, Option.some_inj] at hr
        obtain ⟨hI0, hN0, hP0, hins0⟩ := hte m3 ck2 cv2 r0 hI3 hN3 hF3 hs3 hte0
        have hmap : r.map = r0.map := by rw [← hr]
        have hins : r.inserted = r0.inserted := by rw [← hr]
        rw [hmap, hins]
        refine ⟨hI0, hN0, ?_, hins0⟩
        refine hP0.trans ?_
        refine (hP3.cons (ck2, cv2)).trans ?_
        exact List.perm_append_comm.trans hP2
  | noFuel => cases hr

/-- Inserting a key absent from an invariant, duplicate-free table through
`try_emplace` (at any fuel that returns) adds exactly that pair to the
store, preserves the invariants, and reports `inserted = true`. -/
theorem tryEmplaceF_fresh (h : Nat → Nat) : ∀ fuel, TeF h (tryEmplaceF h fuel) := by
  intro fuel
  induction fuel with
  | zero => intro m k v r _ _ _ _ hr; cases hr
  | succ n ih =>
    intro m k v r hInv hnd hfresh hsmall hr
    unfold tryEmplaceF at hr
    rw [effFp_eq_fprint] at hr
    by_cases htr : loadTrigger m = true
    · rw [htr] at hr
      simp only [if_true] at hr
      cases hreh : rehashGo (tryEmplaceF h n) m (m.capacity * 2) with
      | none => rw [hreh] at hr; cases hr
      | some m1 =>
        rw [hreh] at hr
        obtain ⟨hI1, hN1, hP1⟩ := rehashGo_fresh h _ ih m _ m1 hInv hnd (by omega)
          (by have := hInv.capPos; omega) hreh
        have hfresh1 : freshK m1 k := fun hmem => hfresh ((hP1.map Prod.fst).mem_iff.1 hmem)
        have hs1 : m1.entries.length < 2 ^ 46 := by
          have := hP1.length_eq; omega
        have hpl := probeLoop_fresh h (m1.capacity + 256) m1 k v 0
          (effHash h k % m1.capacity) ((k, v) :: m.entries) hI1 hN1 hfresh1 hs1
          (by rw [Nat.add_zero]) (fun j hj => absurd hj (Nat.not_lt_zero j))
          (List.perm_append_comm.trans (hP1.cons (k, v)))
        exact afterProbe_fresh h _ ih m1 r _ _ (by simp only [List.length_cons]; omega) hpl hr
    · simp only [Bool.not_eq_true] at htr
      rw [htr] at hr
      simp only [Bool.false_eq_true, if_false] at hr
      have hpl := probeLoop_fresh h (m.capacity + 256) m k v 0
        (effHash h k % m.capacity) ((k, v) :: m.entries) hInv hnd hfresh hsmall
        (by rw [Nat.add_zero]) (fun j hj => absurd hj (Nat.not_lt_zero j))
        List.perm_append_comm
      exact afterProbe_fresh h _ ih m r _ _ (by simp only [List.length_cons]; omega) hpl hr

end UDM

namespace UDM

/-- Walking the `find` probe loop from distance `dist` along the (non-empty)
probe path of the unique entry `i` holding key `k` reaches that entry: every
intermediate slot is skipped (tombstone, fingerprint mismatch or key
mismatch) or resolves to `i` itself by key uniqueness, and the slot at the
recorded distance matches. -/
theorem findAux_hit_aux (h : Nat → Nat) (m : DMap) (k i p : Nat)
    (hInv : InvT h m) (hnd : NodupK m)
    (hi : i < m.entries.length) (hkey : (entryAt m i).1 = k)
    (hplt : p < m.capacity) (hpo : (m.buckets p).occupied = true)
    (hpei : (m.buckets p).entryIndex = i) :
    ∀ (n dist : Nat), dist ≤ (m.buckets p).distance →
      n = (m.buckets p).distance - dist →
      findAux m (fprint h k) k ((effHash h k + dist) % m.capacity)
        (MAX_DIST - dist) = some i := by
  obtain ⟨heiLt, hfpEq, hdLt, hposEq, hpath⟩ := hInv.occOk p hplt hpo
  rw [hpei, hkey] at hfpEq hposEq hpath
  intro n
  induction n with
  | zero =>
    intro dist hle hz
    have hde : dist = (m.buckets p).distance := by omega
    rw [hde, ← hposEq]
    have hfuel : MAX_DIST - (m.buckets p).distance =
        (MAX_DIST - (m.buckets p).distance - 1) + 1 := by omega
    rw [hfuel]
    simp only [findAux, occ_not_emptyB _ hpo, occ_not_tombB _ hpo, Bool.false_eq_true,
      if_false, hpo, hfpEq, hpei, hkey, beq_self_eq_true, Bool.and_self, if_true]
  | succ nn ihn =>
    intro dist hle hz
    have hlt : dist < (m.buckets p).distance := by omega
    have hne : (m.buckets ((effHash h k + dist) % m.capacity)).isEmptyB = false :=
      hpath dist hlt
    have hfuel : MAX_DIST - dist = (MAX_DIST - (dist + 1)) + 1 := by omega
    rw [hfuel]
    have hposstep : ((effHash h k + dist) % m.capacity + 1) % m.capacity =
        (effHash h k + (dist + 1)) % m.capacity := by
      rw [Nat.mod_add_mod, Nat.add_assoc]
    by_cases htmb : (m.buckets ((effHash h k + dist) % m.capacity)).isTombB = true
    · simp only [findAux, hne, Bool.false_eq_true, if_false, htmb, if_true]
      rw [hposstep]
      exact ihn (dist + 1) (by omega) (by omega)
    · have hso : (m.buckets ((effHash h k + dist) % m.capacity)).occupied = true :=
        occ_of_not_empty_tomb _ (by rw [hne]; exact fun hc => by cases hc) htmb
      by_cases hmatch : ((m.buckets ((effHash h k + dist) % m.capacity)).occupied
          && (m.buckets ((effHash h k + dist) % m.capacity)).fingerprint == fprint h k
          && ((entryAt m ((m.buckets ((effHash h k + dist) % m.capacity)).entryIndex)).1
            == k)) = true
      · simp only [findAux, hne, Bool.false_eq_true, if_false, htmb, hmatch, if_true]
        simp only [Bool.and_eq_true, beq_iff_eq] at hmatch
        have hslt : (effHash h k + dist) % m.capacity < m.capacity :=
          Nat.mod_lt _ hInv.capPos
        have heiLt2 := (hInv.occOk _ hslt hso).eiLt
        have hieq : (m.buckets ((effHash h k + dist) % m.capacity)).entryIndex = i :=
          nodupK_index_eq m hnd _ i heiLt2 hi (by rw [hmatch.2, hkey])
        rw [hieq]
      · simp only [findAux, hne, Bool.false_eq_true, if_false, htmb, hmatch, if_true]
        rw [hposstep]
        exact ihn (dist + 1) (by omega) (by omega)

/-- On an invariant table with pairwise-distinct keys, `find` returns the
index of the (unique) entry holding the searched key. -/
theorem findF_hits (h : Nat → Nat) (m : DMap) (k i : Nat)
    (hInv : InvT h m) (hnd : NodupK m)
    (hi : i < m.entries.length) (hkey : (entryAt m i).1 = k) :
    findF h m k = some i := by
  obtain ⟨p, hplt, hpo, hpei⟩ := hInv.surj i hi
  have hmain := findAux_hit_aux h m k i p hInv hnd hi hkey hplt hpo hpei
    ((m.buckets p).distance) 0 (Nat.zero_le _) (by omega)
  unfold findF
  rw [effFp_eq_fprint]
  simpa using hmain

end UDM

namespace UDM

/-- C1.  Round-trip correctness of the single-threaded map: for every hash
provider, every fuel, and every sequence of insertions of pairwise-distinct
keys (of any length within the 46-bit entry-index address space, in
particular long enough to cross rehash thresholds) that returns, a
subsequent `find` on each inserted key returns an entry handle holding
exactly that key and the (unique, hence last) value written for it. -/
theorem c1_round_trip (h : Nat → Nat) (fuel : Nat) (l : List (Nat × Nat)) (m : DMap)
    (hnd : (l.map Prod.fst).Nodup) (hlen : l.length ≤ 2 ^ 46)
    (hrun : runInserts h fuel emptyMap l = some m) :
    ∀ kv ∈ l, ∃ i, i < m.entries.length ∧ findF h m kv.1 = some i ∧ entryAt m i = kv := by
  unfold runInserts at hrun
  have hI0 : InvT h emptyMap := invT_rebuilt h 16 (by norm_num)
  obtain ⟨hI, hN, hP⟩ := reinsertGo_fresh h _ (tryEmplaceF_fresh h fuel) l emptyMap m hI0
    (by simp [NodupK, emptyMap]) (fun k0 _ => by simp [freshK, emptyMap]) hnd
    (by simpa [emptyMap] using hlen) hrun
  intro kv hkv
  have hmem : kv ∈ m.entries := hP.mem_iff.2 (List.mem_append.2 (Or.inr hkv))
  obtain ⟨i, hilt, hieq⟩ := List.mem_iff_getElem.1 hmem
  have hE : entryAt m i = kv := by
    unfold entryAt
    rw [List.getD_eq_getElem _ _ hilt]
    exact hieq
  exact ⟨i, hilt, findF_hits h m kv.1 i hI hN hilt (by rw [hE]), hE⟩

/-- Witness for C1: inserting the 14 distinct keys of `listC1` into the
fresh map crosses the rehash threshold (the capacity doubles to 32), and the
subsequent `find` of key 7 returns the handle of the entry `(7, 106)`. -/
theorem c1_round_trip_witness :
    ((runInserts hid 30 emptyMap listC1).getD emptyMap).capacity = 32 ∧
    (findF hid ((runInserts hid 30 emptyMap listC1).getD emptyMap) 7).isSome = true ∧
    entryAt ((runInserts hid 30 emptyMap listC1).getD emptyMap)
      ((findF hid ((runInserts hid 30 emptyMap listC1).getD emptyMap) 7).getD 0) =
      (7, 106) := by
  have hmain := c1_round_trip hid 30 listC1
    ((runInserts hid 30 emptyMap listC1).getD emptyMap) (by decide) (by decide)
    (opt_eq_some_getD _ emptyMap (by decide))
  obtain ⟨i, hilt, hf, he⟩ := hmain (7, 106) (by decide)
  refine ⟨by decide, by rw [hf]; rfl, ?_⟩
  rw [hf]
  simpa using he

end UDM
